import Mathlib

/-!
Shallow embedding of `scripts/pixi_to_osv.py`: the package-identity
extraction engine (identifier parser, lock-document walker, classifier,
and the manifest emitters), together with theorems settling the spec
claims about it.

Strings are processed at the `List Char` level so that every operation is
a structural recursion we can both evaluate and reason about.  The
top-level functions keep the names of the Python functions they embed.
-/

/-- Word character of the regex class used by the version pattern
(ASCII letters, digits and underscore). -/
def wordChar (c : Char) : Bool :=
  c.isAlphanum || c == '_'

/-- Split a character list on a separator character; mirrors Python
`str.split(sep)`: always returns at least one (possibly empty) group. -/
def splitOnChar (sep : Char) : List Char → List (List Char)
  | [] => [[]]
  | c :: cs =>
    if c = sep then [] :: splitOnChar sep cs
    else
      match splitOnChar sep cs with
      | [] => [[c]]
      | g :: gs => (c :: g) :: gs

/-- Join groups with a separator character; mirrors Python `sep.join`. -/
def joinWith (sep : Char) : List (List Char) → List Char
  | [] => []
  | [g] => g
  | g :: gs => g ++ sep :: joinWith sep gs

/-- Whether `p` is a leading prefix of `l` (Python `str.startswith`). -/
def isPrefixL : List Char → List Char → Bool
  | [], _ => true
  | _ :: _, [] => false
  | a :: as, b :: bs => a == b && isPrefixL as bs

/-- Whether `sub` occurs as a contiguous substring of `l`
(Python `sub in s`). -/
def containsSub (sub : List Char) : List Char → Bool
  | [] => isPrefixL sub []
  | l@(_ :: rest) => isPrefixL sub l || containsSub sub rest

/-- Whether `suf` is a trailing suffix of `l` (Python `str.endswith`). -/
def endsWithL (suf l : List Char) : Bool :=
  isPrefixL suf.reverse l.reverse

/-- Whether the string begins with an ASCII digit
(Python `re.match(r'^\d+', s)` succeeding). -/
def startsWithDigit : List Char → Bool
  | [] => false
  | c :: _ => c.isDigit

/-- Characters allowed in a URL scheme after the leading letter
(`urllib.parse` scheme characters). -/
def isSchemeChar (c : Char) : Bool :=
  c.isAlphanum || c == '+' || c == '-' || c == '.'

/-- Drop a leading `scheme:` from a URL, exactly when the text before the
first colon is a non-empty run of scheme characters starting with a
letter (mirrors `urllib.parse.urlsplit` scheme detection). -/
def stripScheme (u : List Char) : List Char :=
  let pre := u.takeWhile (fun c => c != ':')
  if pre.length < u.length ∧ pre ≠ [] ∧
      (pre.headD ' ').isAlpha ∧ pre.all isSchemeChar then
    u.drop (pre.length + 1)
  else u

/-- Drop a leading `//netloc` part: everything after `//` up to the first
`/`, `?` or `#` (mirrors `urllib.parse.urlsplit` netloc splitting; the
delimiter itself stays in the remainder). -/
def dropNetloc (u : List Char) : List Char :=
  match u with
  | '/' :: '/' :: rest =>
    rest.dropWhile (fun c => c != '/' && c != '?' && c != '#')
  | _ => u

/-- Keep only the text before the first occurrence of `c`
(used to cut off the query and the fragment). -/
def stripAfter (c : Char) (u : List Char) : List Char :=
  u.takeWhile (fun x => x != c)

/-- The `.path` component of `urllib.parse.urlparse`: scheme and netloc
removed, fragment (after `#`) and query (after `?`) cut off. -/
def urlPath (u : List Char) : List Char :=
  stripAfter '?' (stripAfter '#' (dropNetloc (stripScheme u)))

/-- Final path component, as `pathlib.Path(p).name` on POSIX: split on
`/`, discard empty and `.` components, take the last one (or empty). -/
def pathName (p : List Char) : List Char :=
  (((splitOnChar '/' p).filter
      (fun comp => !comp.isEmpty && comp != ['.']))).getLastD []

/-- Strip a known archive extension from the end of the filename
(`re.sub` with the anchored alternation of `.conda` and `.tar.bz2`). -/
def stripExt (f : List Char) : List Char :=
  if endsWithL ".conda".data f then f.take (f.length - 6)
  else if endsWithL ".tar.bz2".data f then f.take (f.length - 8)
  else f

/-- The cleaned filename the parser works on: final path segment of the
locator with known archive extensions stripped. -/
def cleanedFilename (url : List Char) : List Char :=
  stripExt (pathName (urlPath url))

/-- Whether a hyphen-free segment is matched in full by the version
group `digits ('.' digits)* (word-chars)?` of the primary pattern:
all dot-separated groups but the last are non-empty digit runs, and the
last group is a digit followed by word characters. -/
def versionSeg (t : List Char) : Bool :=
  let gs := splitOnChar '.' t
  (gs.dropLast.all (fun g => !g.isEmpty && g.all Char.isDigit)) &&
    (match gs.getLastD [] with
     | [] => false
     | c :: cs => c.isDigit && cs.all wordChar)

/-- Backtracking core of the primary pattern
`^(.+?)-(\d+(?:\.\d+)*(?:\w+)?)-.*$`: `name` is the text accumulated to
the left of the candidate boundary hyphen, the argument list holds the
remaining hyphen-separated segments.  The lazy `(.+?)` tries boundaries
left to right; a boundary succeeds when the accumulated name is
non-empty, the next segment is matched in full by the version group, and
another hyphen follows (a further segment exists). -/
def regexAux (name : List Char) : List (List Char) → Option (List Char × List Char)
  | [] => none
  | [_] => none
  | v :: w :: rest =>
    if !name.isEmpty && versionSeg v then some (name, v)
    else regexAux (name ++ '-' :: v) (w :: rest)

/-- The primary pattern match of the parser on the cleaned filename. -/
def regexMatch (s : List Char) : Option (List Char × List Char) :=
  match splitOnChar '-' s with
  | [] => none
  | g :: gs => regexAux g gs

/-- Fallback scan of the parser: over the hyphen-split parts, the last
part at index ≥ 1 that begins with a digit is the version; the parts
before it, re-joined with hyphens, are the name.  `name` accumulates the
re-joined parts to the left of the current candidate. -/
def fbScan (name : List Char) : List (List Char) → Option (List Char × List Char)
  | [] => none
  | p :: ps =>
    match fbScan (name ++ '-' :: p) ps with
    | some r => some r
    | none => if startsWithDigit p then some (name, p) else none

/-- `extract_package_info` on character lists: clean the locator down to
a filename, try the primary pattern, then the digit-segment fallback,
and finally return the whole filename with the `unknown` sentinel. -/
def extractPI (url : List Char) : List Char × List Char :=
  let filename := cleanedFilename url
  match regexMatch filename with
  | some nv => nv
  | none =>
    match splitOnChar '-' filename with
    | [] => (filename, "unknown".data)
    | g :: gs =>
      match fbScan g gs with
      | some nv => nv
      | none => (filename, "unknown".data)

/-- Embeds `extract_package_info(conda_url)` of `scripts/pixi_to_osv.py`:
extract the package name and version from a conda URL. -/
def extract_package_info (conda_url : String) : String × String :=
  let r := extractPI conda_url.data
  (⟨r.1⟩, ⟨r.2⟩)

example : extract_package_info
    "https://conda.anaconda.org/conda-forge/linux-64/brotli-python-1.1.0-py39hf88036b_3.conda"
    = ("brotli-python", "1.1.0") := by decide

example : extract_package_info "https://host/path/weirdname.conda"
    = ("weirdname", "unknown") := by decide

example : extract_package_info "https://host/path/foo-bar-1.1.0-py39hf88036b_3.conda"
    = ("foo-bar", "1.1.0") := by decide

example : extract_package_info "" = ("", "unknown") := by decide

example : extract_package_info "name-1-rest-2.0-build" = ("name", "1") := by decide

example : extract_package_info "abc-12xy.tar.bz2" = ("abc", "12xy") := by decide

/-- The Python-package indicator set of `create_requirements_txt`
(the `python_indicators` set literal, order immaterial under `any`). -/
def python_indicators : List String :=
  ["python", "py-", "pip", "setuptools", "wheel", "certifi",
   "charset-normalizer", "idna", "urllib3", "requests", "numpy",
   "pandas", "scipy", "matplotlib", "seaborn", "scikit-learn",
   "tensorflow", "torch", "pytorch", "flask", "django", "fastapi",
   "pydantic", "sqlalchemy", "psycopg2", "pymongo", "redis-py",
   "brotli-python", "pycparser", "pysocks", "pyyaml", "markupsafe",
   "jinja2", "networkx", "gitpython", "typing_extensions"]

/-- The interpreted-ecosystem classifier predicate of
`create_requirements_txt`: on the lowercased name, an indicator occurs
as a substring, or the name starts with `py`, contains `-py`, ends with
`-python`, or contains `python`. -/
def is_python_package (name : String) : Bool :=
  let n := name.data.map Char.toLower
  python_indicators.any (fun ind => containsSub ind.data n) ||
    isPrefixL "py".data n ||
    containsSub "-py".data n ||
    endsWithL "-python".data n ||
    containsSub "python".data n

example : is_python_package "brotli-python" = true := by decide
example : is_python_package "numpy" = true := by decide
example : is_python_package "glibc" = false := by decide
example : is_python_package "OpenSSL" = false := by decide

/-- A package entry of the lock document: a mapping, modelled as an
association list from keys to locator strings.  The walker only ever
looks up the `conda` key. -/
abbrev PkgEntry := List (String × String)

/-- The value of the `conda` key of an entry, when the entry carries the
native-package tag (`'conda' in package_entry` / `package_entry['conda']`). -/
def entryConda (e : PkgEntry) : Option String :=
  e.lookup "conda"

/-- The per-environment data: the optional `packages` mapping from
platform names to the lists of package entries. -/
structure EnvData where
  packages : Option (List (String × List PkgEntry))
deriving DecidableEq

/-- The parsed lock document: the optional top-level `environments`
mapping from environment names to their data. -/
structure PixiDoc where
  environments : Option (List (String × EnvData))
deriving DecidableEq

/-- A normalized package record as built by
`extract_packages_from_pixi_lock`. -/
structure PackageRecord where
  name : String
  version : String
  environment : String
  platform : String
  url : String
  ecosystem : String
deriving DecidableEq

/-- The record built for a tagged entry with locator `u` found under
environment `env` and platform `plat`. -/
def mkRecord (u env plat : String) : PackageRecord :=
  let nv := extract_package_info u
  ⟨nv.1, nv.2, env, plat, u, "conda"⟩

/-- The console message printed for a document missing `environments`. -/
def malformed_signal : String := "❌ No environments found in pixi.lock"

/-- Embeds `extract_packages_from_pixi_lock(data)`: walk environments →
platforms → entries, keep `conda`-tagged entries, and build one record
each; second component is the list of console messages the function
prints (the malformed-document signal).  The embedding is a total
function: no execution path raises. -/
def extract_packages_from_pixi_lock (data : PixiDoc) :
    List PackageRecord × List String :=
  match data.environments with
  | none => ([], [malformed_signal])
  | some envs =>
    (envs.flatMap (fun ep =>
      match ep.2.packages with
      | none => []
      | some plats =>
        plats.flatMap (fun pp =>
          pp.2.flatMap (fun entry =>
            match entryConda entry with
            | some u => [mkRecord u ep.1 pp.1]
            | none => []))), [])

/-- Modelled from the spec (§4.2 Lock Document Walker, before the tag
filter): the stream of package entries with their environment and
platform context, in document order. -/
def walkEntries (d : PixiDoc) : List (PkgEntry × String × String) :=
  match d.environments with
  | none => []
  | some envs =>
    envs.flatMap (fun ep =>
      match ep.2.packages with
      | none => []
      | some plats =>
        plats.flatMap (fun pp =>
          pp.2.map (fun entry => (entry, ep.1, pp.1))))

/-- Insert-or-replace on an association list, with Python `dict`
assignment semantics: an existing key keeps its position and gets the
new value, a fresh key is appended at the end. -/
def dictInsert (k : String) (v : α) :
    List (String × α) → List (String × α)
  | [] => [(k, v)]
  | (k₀, v₀) :: rest =>
    if k₀ = k then (k, v) :: rest else (k₀, v₀) :: dictInsert k v rest

/-- One value of the `packages` map of the OSV lockfile. -/
structure OsvEntry where
  name : String
  version : String
  resolved : String
  ecosystem : String
  environment : String
  platform : String
deriving DecidableEq

/-- The OSV lockfile fields relevant to the engine: the metadata record
count and the `packages` map (`list(set(...))`-valued metadata fields,
whose order is interpreter-dependent, are not modelled). -/
structure OsvLockfile where
  total_packages : Nat
  packages : List (String × OsvEntry)
deriving DecidableEq

/-- The `name@version` key under which `create_osv_lockfile` stores a
record. -/
def osvKey (p : PackageRecord) : String :=
  p.name ++ "@" ++ p.version

/-- The map value `create_osv_lockfile` stores for a record. -/
def osvEntryOf (p : PackageRecord) : OsvEntry :=
  ⟨p.name, p.version, p.url, "conda", p.environment, p.platform⟩

/-- One iteration of the `create_osv_lockfile` loop: store the record
under its `name@version` key. -/
def osvStep (m : List (String × OsvEntry)) (p : PackageRecord) :
    List (String × OsvEntry) :=
  dictInsert (osvKey p) (osvEntryOf p) m

/-- Embeds `create_osv_lockfile(packages)`: build the lockfile (metadata
total and the `packages` dict filled in list order) and return it with
the function's return value, the size of the `packages` dict. -/
def create_osv_lockfile (pkgs : List PackageRecord) : OsvLockfile × Nat :=
  let lf : OsvLockfile := ⟨pkgs.length, pkgs.foldl osvStep []⟩
  (lf, lf.packages.length)

/-- One value of the top-level `dependencies` map of the npm-style
lockfile. -/
structure NpmDep where
  version : String
  resolved : String
  ecosystem : String
deriving DecidableEq

/-- The npm-style lockfile fields relevant to the engine: the root
package dependency map (`packages[""]["dependencies"]`) and the
top-level `dependencies` map. -/
structure PackageLock where
  rootDependencies : List (String × String)
  dependencies : List (String × NpmDep)
deriving DecidableEq

/-- One iteration of the `create_package_json_style` loop: a record with
a recognized version is stored under its name in both maps, a record
with the `unknown` sentinel version is skipped. -/
def npmStep (pl : PackageLock) (p : PackageRecord) : PackageLock :=
  if p.version ≠ "unknown" then
    ⟨dictInsert p.name p.version pl.rootDependencies,
     dictInsert p.name ⟨p.version, p.url, "conda"⟩ pl.dependencies⟩
  else pl

/-- Embeds `create_package_json_style(packages)`: records whose version
is the `unknown` sentinel are skipped; the others fill both maps keyed
by name, in list order; the return value is the size of the
`dependencies` map. -/
def create_package_json_style (pkgs : List PackageRecord) :
    PackageLock × Nat :=
  let pl : PackageLock := pkgs.foldl npmStep ⟨[], []⟩
  (pl, pl.dependencies.length)

/-! ### Helper lemmas about the parser -/

theorem splitOnChar_ne_nil (sep : Char) (l : List Char) :
    splitOnChar sep l ≠ [] := by
  cases l with
  | nil => simp [splitOnChar]
  | cons c cs =>
    by_cases h : c = sep
    · simp [splitOnChar, h]
    · simp only [splitOnChar, if_neg h]
      cases splitOnChar sep cs <;> simp

theorem splitOnChar_cons_of_ne (sep c : Char) (cs : List Char) (h : c ≠ sep) :
    ∃ g gs, splitOnChar sep (c :: cs) = (c :: g) :: gs := by
  simp only [splitOnChar, if_neg h]
  cases hs : splitOnChar sep cs with
  | nil => exact absurd hs (splitOnChar_ne_nil sep cs)
  | cons g gs => exact ⟨g, gs, rfl⟩

theorem regexAux_name_ne_nil :
    ∀ (gs : List (List Char)) (name n v : List Char),
      regexAux name gs = some (n, v) → n ≠ [] := by
  intro gs
  induction gs with
  | nil => intro name n v h; simp [regexAux] at h
  | cons v₀ tail ih =>
    intro name n v h
    cases tail with
    | nil => simp [regexAux] at h
    | cons w rest =>
      rw [regexAux] at h
      by_cases hc : (!name.isEmpty && versionSeg v₀) = true
      · rw [if_pos hc] at h
        obtain ⟨h1, h2⟩ := Prod.mk.injEq .. ▸ Option.some.injEq .. ▸ h
        simp only [Bool.and_eq_true, Bool.not_eq_true'] at hc
        intro hn
        rw [← h1] at hn
        simp [hn] at hc
      · rw [if_neg hc] at h
        exact ih _ n v h

theorem fbScan_name_ne_nil :
    ∀ (ps : List (List Char)) (name n v : List Char),
      name ≠ [] → fbScan name ps = some (n, v) → n ≠ [] := by
  intro ps
  induction ps with
  | nil => intro name n v _ h; simp [fbScan] at h
  | cons p tail ih =>
    intro name n v hname h
    rw [fbScan] at h
    cases hrec : fbScan (name ++ '-' :: p) tail with
    | some r =>
      rw [hrec] at h
      obtain ⟨n', v'⟩ := r
      have := ih (name ++ '-' :: p) n' v' (by simp) hrec
      cases h
      exact this
    | none =>
      rw [hrec] at h
      by_cases hd : startsWithDigit p = true
      · rw [if_pos hd] at h
        cases h
        exact hname
      · rw [if_neg hd] at h
        simp at h

theorem versionSeg_startsWithDigit (t : List Char) :
    versionSeg t = true → startsWithDigit t = true := by
  intro h
  cases t with
  | nil => simp [versionSeg, splitOnChar] at h
  | cons c cs =>
    by_cases hc : c = '.'
    · subst hc
      rw [versionSeg] at h
      simp only [splitOnChar, if_pos rfl] at h
      obtain ⟨r, rs, hrs⟩ :
          ∃ r rs, splitOnChar '.' cs = r :: rs :=
        List.exists_cons_of_ne_nil (splitOnChar_ne_nil '.' cs)
      rw [hrs] at h
      simp at h
    · obtain ⟨g, gs, hsplit⟩ := splitOnChar_cons_of_ne '.' c cs hc
      rw [versionSeg, hsplit] at h
      cases gs with
      | nil =>
        simp only [List.dropLast_single, List.all_nil, List.getLastD_cons,
          List.getLastD_nil, Bool.true_and, Bool.and_eq_true] at h
        simp [startsWithDigit, h.1]
      | cons r rs =>
        rw [List.dropLast_cons₂] at h
        simp only [List.all_cons, Bool.and_eq_true, List.isEmpty_cons,
          Bool.not_false, Bool.true_and] at h
        simp [startsWithDigit, h.1.1.1]

theorem regexAux_none (gs : List (List Char)) :
    ∀ name, (∀ v ∈ gs, versionSeg v = false) → regexAux name gs = none := by
  induction gs with
  | nil => intro name _; simp [regexAux]
  | cons v tail ih =>
    intro name h
    cases tail with
    | nil => simp [regexAux]
    | cons w rest =>
      rw [regexAux]
      have hv : versionSeg v = false := h v (by simp)
      rw [if_neg (by simp [hv])]
      exact ih _ (fun x hx => h x (by simp [hx]))

theorem fbScan_none (ps : List (List Char)) :
    ∀ name, (∀ p ∈ ps, startsWithDigit p = false) → fbScan name ps = none := by
  induction ps with
  | nil => intro name _; simp [fbScan]
  | cons p tail ih =>
    intro name h
    rw [fbScan, ih _ (fun x hx => h x (by simp [hx]))]
    simp [h p (by simp)]

theorem extractPI_cases (url : List Char) (g : List Char)
    (gs : List (List Char))
    (hsplit : splitOnChar '-' (cleanedFilename url) = g :: gs) :
    extractPI url =
      match regexAux g gs with
      | some nv => nv
      | none =>
        match fbScan g gs with
        | some nv => nv
        | none => (cleanedFilename url, "unknown".data) := by
  rw [extractPI, regexMatch, hsplit]

/-! ### Claim theorems -/

/-- C1: for a document with one environment `default`, one platform
`linux-64` and one `conda`-tagged entry whose locator filename is
`brotli-python-1.1.0-py39hf88036b_3.conda`, the pipeline produces
exactly one record with name `brotli-python`, version `1.1.0`,
environment `default`, platform `linux-64`, and that name satisfies the
interpreted-ecosystem classifier predicate of `create_requirements_txt`. -/
theorem c1_scenario_record :
    (extract_packages_from_pixi_lock
      ⟨some [("default", ⟨some [("linux-64",
        [[("conda",
           "https://conda.anaconda.org/conda-forge/linux-64/brotli-python-1.1.0-py39hf88036b_3.conda")]])]⟩)]⟩).1
      = [⟨"brotli-python", "1.1.0", "default", "linux-64",
          "https://conda.anaconda.org/conda-forge/linux-64/brotli-python-1.1.0-py39hf88036b_3.conda",
          "conda"⟩]
    ∧ is_python_package "brotli-python" = true := by
  constructor
  · decide
  · decide

/-- C2 (counterexample): the claim says `numpy` does not satisfy the
interpreted-ecosystem classifier predicate; in the code it does, because
the indicator set of `create_requirements_txt` literally contains
`numpy`. -/
theorem c2_counterexample_numpy :
    ¬ is_python_package "numpy" = false := by decide

/-- C2 (amended): the classifier maps `numpy` to the interpreted bucket:
the allowlist-fragment containment check fires (the fragment `numpy` is
in the indicator set), while the four other checks — `py` prefix test,
`-py` infix test, `-python` suffix test, `python` substring test — all
fail on `numpy`. -/
theorem c2_amended_numpy_interpreted :
    is_python_package "numpy" = true
    ∧ python_indicators.any
        (fun ind => containsSub ind.data ("numpy".data.map Char.toLower)) = true
    ∧ isPrefixL "py".data ("numpy".data.map Char.toLower) = false
    ∧ containsSub "-py".data ("numpy".data.map Char.toLower) = false
    ∧ endsWithL "-python".data ("numpy".data.map Char.toLower) = false
    ∧ containsSub "python".data ("numpy".data.map Char.toLower) = false := by
  refine ⟨by decide, by decide, by decide, by decide, by decide, by decide⟩

/-- C3 (counterexample): the claim says the parsed name is non-empty for
every locator string, including the empty string; but on the empty
locator the cleaned filename is empty and every fallback returns it, so
the name is the empty string. -/
theorem c3_counterexample_empty_locator :
    (extract_package_info "").1 = "" := by decide

/-- C3 (amended): for every locator whose cleaned filename is non-empty
and does not start with a hyphen, the name returned by
`extract_package_info` is non-empty (the hypothesis `headD '-' ≠ '-'`
states exactly that: an empty filename would default to `'-'`). -/
theorem c3_amended_name_ne_empty (L : String)
    (h : (cleanedFilename L.data).headD '-' ≠ '-') :
    (extract_package_info L).1 ≠ "" := by
  obtain ⟨c, cs, hf⟩ : ∃ c cs, cleanedFilename L.data = c :: cs := by
    cases hf : cleanedFilename L.data with
    | nil => rw [hf] at h; simp at h
    | cons c cs => exact ⟨c, cs, rfl⟩
  have hc : c ≠ '-' := by rw [hf] at h; simpa using h
  have key : (extractPI L.data).1 ≠ [] := by
    obtain ⟨g, gs, hsplit⟩ := splitOnChar_cons_of_ne '-' c cs hc
    rw [extractPI_cases L.data (c :: g) gs (by rw [hf]; exact hsplit)]
    cases hr : regexAux (c :: g) gs with
    | some nv =>
      obtain ⟨n, v⟩ := nv
      simpa using regexAux_name_ne_nil gs (c :: g) n v hr
    | none =>
      cases hfb : fbScan (c :: g) gs with
      | some nv =>
        obtain ⟨n, v⟩ := nv
        simpa using fbScan_name_ne_nil gs (c :: g) n v (by simp) hfb
      | none => simp [hf]
  intro hcontra
  apply key
  have : (extract_package_info L).1.data = "".data := by rw [hcontra]
  simpa [extract_package_info] using this

/-- C3 amended, witnessed at a concrete locator. -/
theorem c3_amended_name_ne_empty_witness :
    (cleanedFilename "https://host/path/weird.conda".data).headD '-' ≠ '-'
    ∧ (extract_package_info "https://host/path/weird.conda").1 ≠ "" :=
  ⟨by decide, c3_amended_name_ne_empty "https://host/path/weird.conda" (by decide)⟩

/-- C6: a document without the top-level `environments` key yields the
empty record list together with the malformed-document signal (and, the
embedding being a total function, no exception). -/
theorem c6_malformed_document (d : PixiDoc) (h : d.environments = none) :
    extract_packages_from_pixi_lock d = ([], [malformed_signal]) := by
  obtain ⟨envs⟩ := d
  cases h
  rfl

/-- C6, witnessed on the concrete empty document. -/
theorem c6_malformed_document_witness :
    (PixiDoc.mk none).environments = none
    ∧ extract_packages_from_pixi_lock ⟨none⟩ = ([], [malformed_signal]) :=
  ⟨rfl, c6_malformed_document ⟨none⟩ rfl⟩

/-- C7: for every locator whose cleaned filename has no hyphen-delimited
segment beginning with a digit, the parser returns the whole cleaned
filename as the name and the sentinel `unknown` as the version (the
primary pattern and the digit-segment fallback both fail). -/
theorem c7_sentinel_version (L : String)
    (h : ∀ t ∈ splitOnChar '-' (cleanedFilename L.data),
          startsWithDigit t = false) :
    extract_package_info L = (⟨cleanedFilename L.data⟩, "unknown") := by
  obtain ⟨g, gs, hsplit⟩ :
      ∃ g gs, splitOnChar '-' (cleanedFilename L.data) = g :: gs :=
    List.exists_cons_of_ne_nil (splitOnChar_ne_nil '-' _)
  have hver : ∀ v ∈ gs, versionSeg v = false := by
    intro v hv
    cases hvs : versionSeg v with
    | false => rfl
    | true =>
      have := versionSeg_startsWithDigit v hvs
      rw [h v (by rw [hsplit]; exact List.mem_cons_of_mem _ hv)] at this
      cases this
  have hdig : ∀ p ∈ gs, startsWithDigit p = false := by
    intro p hp
    exact h p (by rw [hsplit]; exact List.mem_cons_of_mem _ hp)
  rw [extract_package_info, extractPI_cases L.data g gs hsplit,
    regexAux_none gs g hver, fbScan_none gs g hdig]

/-- C7, witnessed at the fallback-path locator of the spec scenario. -/
theorem c7_sentinel_version_witness :
    (∀ t ∈ splitOnChar '-' (cleanedFilename "https://host/path/weirdname.conda".data),
      startsWithDigit t = false)
    ∧ extract_package_info "https://host/path/weirdname.conda"
        = ("weirdname", "unknown") :=
  ⟨by decide,
   (c7_sentinel_version "https://host/path/weirdname.conda" (by decide)).trans
     (by decide)⟩

/-- C8: the pipeline is a pure function of the document — two runs on
the same document produce identical record lists (same records, same
order). -/
theorem c8_deterministic (d₁ d₂ : PixiDoc) (h : d₁ = d₂) :
    (extract_packages_from_pixi_lock d₁).1 = (extract_packages_from_pixi_lock d₂).1 := by
  rw [h]

/-- C8, witnessed on a concrete document. -/
theorem c8_deterministic_witness :
    (extract_packages_from_pixi_lock
        ⟨some [("default", ⟨some [("linux-64", [[("conda", "https://h/a-1-0.conda")]])]⟩)]⟩).1
      = (extract_packages_from_pixi_lock
          ⟨some [("default", ⟨some [("linux-64", [[("conda", "https://h/a-1-0.conda")]])]⟩)]⟩).1 :=
  c8_deterministic _ _ rfl

/-- C5: the aggregation produces exactly one record for every entry that
carries the `conda` tag (in document order, built from its locator and
context) and no record for any untagged entry; equivalently, the record
list is the tag-filtered image of the spec walker's entry stream, and
its length is the number of tagged entries. -/
theorem c5_records_are_tagged_entries (d : PixiDoc) :
    (extract_packages_from_pixi_lock d).1 =
      (walkEntries d).filterMap
        (fun t => (entryConda t.1).map (fun u => mkRecord u t.2.1 t.2.2))
    ∧ (extract_packages_from_pixi_lock d).1.length =
        (walkEntries d).countP (fun t => (entryConda t.1).isSome) := by
  have main : (extract_packages_from_pixi_lock d).1 =
      (walkEntries d).filterMap
        (fun t => (entryConda t.1).map (fun u => mkRecord u t.2.1 t.2.2)) := by
    obtain ⟨envs⟩ := d
    cases envs with
    | none => rfl
    | some envs =>
      rw [extract_packages_from_pixi_lock, walkEntries]
      simp only [List.filterMap_flatMap]
      congr 1
      funext ep
      cases hp : ep.2.packages with
      | none => rfl
      | some plats =>
        simp only [List.filterMap_flatMap]
        congr 1
        funext pp
        rw [List.filterMap_map]
        rw [List.filterMap_eq_flatMap_toList]
        congr 1
        funext entry
        cases he : entryConda entry <;> simp [he, Function.comp]
  refine ⟨main, ?_⟩
  rw [main, List.length_filterMap_eq_countP]
  congr 1
  funext t
  cases he : entryConda t.1 <;> simp [he]

/-! ### First-boundary characterization of the primary pattern (C4) -/

/-- Extending an accumulated name across one more boundary hyphen. -/
def segStep (a g : List Char) : List Char := a ++ '-' :: g

/-- The name captured when the boundary is placed after the first
`i` segments of `gs` beyond the initial accumulated `name`. -/
def nameAt (name : List Char) (gs : List (List Char)) (i : Nat) : List Char :=
  (gs.take i).foldl segStep name

/-- The conditions under which the primary pattern can succeed with its
boundary at position `i` of `gs` (0-based, `name` already accumulated):
non-empty name, version-shaped segment, and a further hyphen after it. -/
def goodAt (name : List Char) (gs : List (List Char)) (i : Nat) : Prop :=
  nameAt name gs i ≠ [] ∧ versionSeg (gs.getD i []) = true ∧ i + 1 < gs.length

theorem goodAt_cons_succ (name v w : List Char) (rest : List (List Char))
    (i : Nat) :
    goodAt name (v :: w :: rest) (i + 1) ↔ goodAt (segStep name v) (w :: rest) i := by
  simp [goodAt, nameAt, List.take_succ_cons, List.getD_cons_succ,
    Nat.succ_lt_succ_iff]

theorem regexAux_first_good :
    ∀ (i : Nat) (gs : List (List Char)) (name : List Char),
      goodAt name gs i → (∀ k, k < i → ¬ goodAt name gs k) →
      regexAux name gs = some (nameAt name gs i, gs.getD i []) := by
  intro i
  induction i with
  | zero =>
    intro gs name h _
    obtain ⟨hn, hv, hl⟩ := h
    match gs, hl with
    | v :: w :: rest, _ =>
      rw [regexAux, if_pos]
      · simp [nameAt]
      · simp only [Bool.and_eq_true, Bool.not_eq_true', List.isEmpty_eq_false]
        exact ⟨by simpa [nameAt] using hn, by simpa using hv⟩
  | succ i ih =>
    intro gs name h h2
    have hl := h.2.2
    match gs, hl with
    | v :: w :: rest, _ =>
      have hfail : ¬ goodAt name (v :: w :: rest) 0 := h2 0 (Nat.succ_pos i)
      have hcond : (!name.isEmpty && versionSeg v) = false := by
        by_contra hb
        apply hfail
        refine ⟨?_, ?_, by simp⟩
        · have := Bool.not_eq_false _ ▸ hb
          simp only [Bool.and_eq_true, Bool.not_eq_true',
            List.isEmpty_eq_false] at this
          simpa [nameAt] using this.1
        · have := Bool.not_eq_false _ ▸ hb
          simp only [Bool.and_eq_true] at this
          simpa using this.2
      rw [regexAux, if_neg (by simp [hcond])]
      have hstep := ih (w :: rest) (segStep name v)
        ((goodAt_cons_succ name v w rest i).1 h)
        (fun k hk => fun hg =>
          h2 (k + 1) (Nat.succ_lt_succ hk)
            ((goodAt_cons_succ name v w rest k).2 hg))
      rw [show name ++ '-' :: v = segStep name v from rfl, hstep]
      simp [nameAt, List.take_succ_cons, List.getD_cons_succ]

theorem foldl_segStep_append (t : List (List Char)) :
    ∀ (a b : List Char),
      t.foldl segStep (a ++ '-' :: b) = a ++ '-' :: t.foldl segStep b := by
  induction t with
  | nil => intro a b; rfl
  | cons x t ih =>
    intro a b
    rw [List.foldl_cons, List.foldl_cons]
    rw [show segStep (a ++ '-' :: b) x = a ++ '-' :: (b ++ '-' :: x) by
      simp [segStep]]
    rw [ih a (b ++ '-' :: x)]
    rfl

theorem joinWith_cons_foldl (l : List (List Char)) :
    ∀ g : List Char, joinWith '-' (g :: l) = l.foldl segStep g := by
  induction l with
  | nil => intro g; rfl
  | cons h t ih =>
    intro g
    rw [show joinWith '-' (g :: h :: t) = g ++ '-' :: joinWith '-' (h :: t)
      from rfl]
    rw [ih h, List.foldl_cons]
    rw [show segStep g h = g ++ '-' :: h from rfl, foldl_segStep_append]

/-- Validity of boundary `j` (1-based over the hyphen-split segments of
`s`) for the primary pattern: the name joined from the first `j`
segments is non-empty, segment `j` is version-shaped, and a further
segment follows. -/
def validBoundary (s : List Char) (j : Nat) : Prop :=
  1 ≤ j ∧ joinWith '-' ((splitOnChar '-' s).take j) ≠ []
    ∧ versionSeg ((splitOnChar '-' s).getD j []) = true
    ∧ j + 1 < (splitOnChar '-' s).length

instance validBoundary.instDecidable (s : List Char) (j : Nat) :
    Decidable (validBoundary s j) := by
  unfold validBoundary
  infer_instance

theorem validBoundary_iff_goodAt (s : List Char) (g : List Char)
    (gs : List (List Char)) (hsplit : splitOnChar '-' s = g :: gs) (i : Nat) :
    validBoundary s (i + 1) ↔ goodAt g gs i := by
  rw [validBoundary, hsplit, goodAt]
  rw [List.take_succ_cons, joinWith_cons_foldl, List.getD_cons_succ]
  simp [nameAt, Nat.succ_lt_succ_iff, and_assoc]

/-- C4 (amended): when the primary pattern succeeds, its boundary is the
FIRST valid one scanning left to right — the name is the shortest
leading prefix whose following segment is version-shaped and followed by
another hyphen, not the longest. -/
theorem c4_amended_first_boundary_wins (s : List Char) (j : Nat)
    (h1 : validBoundary s j) (h2 : ∀ k, k < j → ¬ validBoundary s k) :
    regexMatch s = some (joinWith '-' ((splitOnChar '-' s).take j),
      (splitOnChar '-' s).getD j []) := by
  obtain ⟨g, gs, hsplit⟩ :=
    List.exists_cons_of_ne_nil (splitOnChar_ne_nil '-' s)
  obtain ⟨i, rfl⟩ : ∃ i, j = i + 1 := ⟨j - 1, by have := h1.1; omega⟩
  rw [regexMatch, hsplit]
  show regexAux g gs = _
  rw [regexAux_first_good i gs g
    ((validBoundary_iff_goodAt s g gs hsplit i).1 h1)
    (fun k hk => fun hg =>
      h2 (k + 1) (Nat.succ_lt_succ hk)
        ((validBoundary_iff_goodAt s g gs hsplit k).2 hg))]
  rw [List.take_succ_cons, joinWith_cons_foldl, List.getD_cons_succ]
  rfl

/-- C4 amended, witnessed on the claim's own example filename: both
boundary 1 (version segment `1`) and boundary 3 (version segment `2.0`)
are valid, and the match takes the first. -/
theorem c4_amended_first_boundary_wins_witness :
    validBoundary "name-1-rest-2.0-build".data 1
    ∧ validBoundary "name-1-rest-2.0-build".data 3
    ∧ regexMatch "name-1-rest-2.0-build".data
        = some ("name".data, "1".data) :=
  ⟨by decide, by decide,
   (c4_amended_first_boundary_wins "name-1-rest-2.0-build".data 1
      (by decide) (by decide)).trans (by decide)⟩

/-- C4 (counterexample): on the claim's example shape
`name-1-rest-2.0-build` the parser returns name `name` and version `1`
(the first hyphen-digit boundary), not the name extended to the last
such boundary (`name-1-rest` with version `2.0`). -/
theorem c4_counterexample_not_longest :
    extract_package_info "name-1-rest-2.0-build" = ("name", "1")
    ∧ (("name" : String), ("1" : String)) ≠ (("name-1-rest" : String), ("2.0" : String)) := by
  exact ⟨by decide, by decide⟩

/-! ### Dictionary lemmas for the emitters (C9, C10) -/

theorem lookup_cons_ne {α : Type} (k a : String) (v : α)
    (tl : List (String × α)) (h : k ≠ a) :
    List.lookup k ((a, v) :: tl) = List.lookup k tl := by
  rw [List.lookup_cons]
  have hb : (k == a) = false := by simp [h]
  rw [hb]

theorem lookup_dictInsert {α : Type} (k₁ k₂ : String) (v : α)
    (m : List (String × α)) :
    (dictInsert k₁ v m).lookup k₂ = if k₂ = k₁ then some v else m.lookup k₂ := by
  induction m with
  | nil =>
    by_cases h : k₂ = k₁
    · subst h; simp [dictInsert, List.lookup_cons_self]
    · rw [if_neg h]
      exact lookup_cons_ne k₂ k₁ v [] h
  | cons hd tl ih =>
    obtain ⟨k₀, v₀⟩ := hd
    by_cases h : k₀ = k₁
    · subst h
      rw [show dictInsert k₀ v ((k₀, v₀) :: tl) = (k₀, v) :: tl by
        simp [dictInsert]]
      by_cases h2 : k₂ = k₀
      · subst h2; simp [List.lookup_cons_self]
      · rw [if_neg h2, lookup_cons_ne k₂ k₀ v tl h2,
          lookup_cons_ne k₂ k₀ v₀ tl h2]
    · rw [show dictInsert k₁ v ((k₀, v₀) :: tl) = (k₀, v₀) :: dictInsert k₁ v tl
        by simp [dictInsert, h]]
      by_cases h2 : k₂ = k₀
      · rw [h2, if_neg h, List.lookup_cons_self, List.lookup_cons_self]
      · rw [lookup_cons_ne k₂ k₀ v₀ (dictInsert k₁ v tl) h2, ih,
          lookup_cons_ne k₂ k₀ v₀ tl h2]

theorem dictInsert_length_le {α : Type} (k : String) (v : α)
    (m : List (String × α)) :
    (dictInsert k v m).length ≤ m.length + 1 := by
  induction m with
  | nil => simp [dictInsert]
  | cons hd tl ih =>
    obtain ⟨k₀, v₀⟩ := hd
    by_cases h : k₀ = k
    · simp [dictInsert, h]
    · simp only [dictInsert, if_neg h, List.length_cons]
      omega

theorem keys_dictInsert {α : Type} (k : String) (v : α)
    (m : List (String × α)) :
    (dictInsert k v m).map Prod.fst =
      if k ∈ m.map Prod.fst then m.map Prod.fst else m.map Prod.fst ++ [k] := by
  induction m with
  | nil => simp [dictInsert]
  | cons hd tl ih =>
    obtain ⟨k₀, v₀⟩ := hd
    by_cases h : k₀ = k
    · subst h
      simp [dictInsert]
    · rw [show dictInsert k v ((k₀, v₀) :: tl) = (k₀, v₀) :: dictInsert k v tl
        by simp [dictInsert, h]]
      rw [List.map_cons, ih, List.map_cons]
      by_cases h2 : k ∈ tl.map Prod.fst
      · rw [if_pos h2, if_pos (by simp [h2])]
      · rw [if_neg h2, if_neg
          (show k ∉ k₀ :: tl.map Prod.fst by
            simp only [List.mem_cons, not_or]
            exact ⟨Ne.symm h, h2⟩)]
        simp

theorem osv_fold_lookup (pkgs : List PackageRecord) :
    ∀ (m : List (String × OsvEntry)) (k : String),
      ((pkgs.foldl osvStep m).lookup k)
        = ((pkgs.reverse.find? (fun p => osvKey p == k)).map osvEntryOf).or
            (m.lookup k) := by
  induction pkgs with
  | nil => intro m k; simp
  | cons p ps ih =>
    intro m k
    rw [List.foldl_cons, ih, List.reverse_cons, List.find?_append]
    have lhs_eq : (osvStep m p).lookup k
        = if k = osvKey p then some (osvEntryOf p) else m.lookup k := by
      rw [osvStep, lookup_dictInsert]
    cases hf : ps.reverse.find? (fun p => osvKey p == k) with
    | some q => simp [hf]
    | none =>
      cases hp : (osvKey p == k) with
      | true =>
        have hk : k = osvKey p := by
          have hq : osvKey p = k := by simpa using hp
          exact hq.symm
        simp [List.find?_cons, hp, lhs_eq, if_pos hk]
      | false =>
        have hk : ¬ k = osvKey p := by
          intro hh
          rw [hh, beq_self_eq_true] at hp
          cases hp
        simp [List.find?_cons, hp, lhs_eq, if_neg hk]

theorem osv_fold_length_le (pkgs : List PackageRecord) :
    ∀ m : List (String × OsvEntry),
      (pkgs.foldl osvStep m).length ≤ m.length + pkgs.length := by
  induction pkgs with
  | nil => intro m; simp
  | cons p ps ih =>
    intro m
    rw [List.foldl_cons]
    calc (ps.foldl osvStep (osvStep m p)).length
        ≤ (osvStep m p).length + ps.length := ih _
      _ ≤ (m.length + 1) + ps.length := by
          have := dictInsert_length_le (osvKey p) (osvEntryOf p) m
          rw [osvStep]; omega
      _ = m.length + (p :: ps).length := by simp; omega

/-- C9: in the OSV manifest the packages map is keyed by
`name@version`; a later record with the same key overwrites the earlier
ones, so the map retains only the last such record, the returned count
is the size of that map, the metadata total is the full record count,
the count never exceeds the total, and with duplicated (name, version)
pairs it is strictly smaller. -/
theorem c9_osv_lockfile_last_wins (pkgs : List PackageRecord) (k : String) :
    ((create_osv_lockfile pkgs).1.packages.lookup k
        = ((pkgs.reverse.find? (fun p => osvKey p == k)).map osvEntryOf))
    ∧ (create_osv_lockfile pkgs).2 = (create_osv_lockfile pkgs).1.packages.length
    ∧ (create_osv_lockfile pkgs).1.total_packages = pkgs.length
    ∧ (create_osv_lockfile pkgs).2 ≤ (create_osv_lockfile pkgs).1.total_packages
    ∧ ∃ l : List PackageRecord,
        (create_osv_lockfile l).2 < (create_osv_lockfile l).1.total_packages := by
  refine ⟨?_, rfl, rfl, ?_, ?_⟩
  · have h := osv_fold_lookup pkgs [] k
    simpa [create_osv_lockfile] using h
  · have h := osv_fold_length_le pkgs []
    simpa [create_osv_lockfile] using h
  · refine ⟨[⟨"a", "1", "e", "p", "u", "conda"⟩,
             ⟨"a", "1", "e", "p", "u", "conda"⟩], by decide⟩

/-- Append a key to a key list if not already present (how Python dict
insertion evolves the key order). -/
def addKey (ks : List String) (n : String) : List String :=
  if n ∈ ks then ks else ks ++ [n]

theorem keys_dictInsert_addKey {α : Type} (k : String) (v : α)
    (m : List (String × α)) :
    (dictInsert k v m).map Prod.fst = addKey (m.map Prod.fst) k := by
  rw [keys_dictInsert]; rfl

theorem npm_fold_lookup (pkgs : List PackageRecord) :
    ∀ (st : PackageLock) (k : String),
      ((pkgs.foldl npmStep st).dependencies.lookup k
        = ((pkgs.reverse.find?
              (fun p => p.name == k && !(p.version == "unknown"))).map
            (fun p => (⟨p.version, p.url, "conda"⟩ : NpmDep))).or
            (st.dependencies.lookup k))
      ∧ ((pkgs.foldl npmStep st).rootDependencies.lookup k
        = ((pkgs.reverse.find?
              (fun p => p.name == k && !(p.version == "unknown"))).map
            (fun p => p.version)).or
            (st.rootDependencies.lookup k)) := by
  induction pkgs with
  | nil => intro st k; simp
  | cons p ps ih =>
    intro st k
    rw [List.foldl_cons]
    by_cases hv : p.version = "unknown"
    · have hpred : (p.name == k && !(p.version == "unknown")) = false := by
        simp [hv]
      have hstep : npmStep st p = st := by
        rw [npmStep, if_neg (by simpa using hv)]
      rw [hstep]
      obtain ⟨ih1, ih2⟩ := ih st k
      constructor
      · rw [ih1, List.reverse_cons, List.find?_append]
        simp [List.find?_cons, hpred]
      · rw [ih2, List.reverse_cons, List.find?_append]
        simp [List.find?_cons, hpred]
    · have hstep : npmStep st p =
          ⟨dictInsert p.name p.version st.rootDependencies,
           dictInsert p.name ⟨p.version, p.url, "conda"⟩ st.dependencies⟩ := by
        rw [npmStep, if_pos hv]
      obtain ⟨ih1, ih2⟩ := ih (npmStep st p) k
      have hpred : (p.name == k && !(p.version == "unknown"))
          = (p.name == k) := by simp [hv]
      have hbv : (!(p.version == "unknown")) = true := by simp [hv]
      constructor
      · rw [ih1, hstep]
        cases hf : ps.reverse.find?
            (fun p => p.name == k && !(p.version == "unknown")) with
        | some q => simp [List.reverse_cons, List.find?_append, hf]
        | none =>
          rw [List.reverse_cons, List.find?_append, hf]
          show (List.lookup k (dictInsert p.name _ st.dependencies) : Option NpmDep) = _
          rw [lookup_dictInsert]
          cases hp : (p.name == k) with
          | true =>
            have hk : k = p.name := by
              have hq : p.name = k := by simpa using hp
              exact hq.symm
            simp [List.find?_cons, hpred, hbv, hp, if_pos hk]
          | false =>
            have hk : ¬ k = p.name := by
              intro hh
              rw [hh, beq_self_eq_true] at hp
              cases hp
            simp [List.find?_cons, hpred, hbv, hp, if_neg hk]
      · rw [ih2, hstep]
        cases hf : ps.reverse.find?
            (fun p => p.name == k && !(p.version == "unknown")) with
        | some q => simp [List.reverse_cons, List.find?_append, hf]
        | none =>
          rw [List.reverse_cons, List.find?_append, hf]
          show (List.lookup k (dictInsert p.name _ st.rootDependencies) : Option String) = _
          rw [lookup_dictInsert]
          cases hp : (p.name == k) with
          | true =>
            have hk : k = p.name := by
              have hq : p.name = k := by simpa using hp
              exact hq.symm
            simp [List.find?_cons, hpred, hbv, hp, if_pos hk]
          | false =>
            have hk : ¬ k = p.name := by
              intro hh
              rw [hh, beq_self_eq_true] at hp
              cases hp
            simp [List.find?_cons, hpred, hbv, hp, if_neg hk]

theorem npm_fold_keys (pkgs : List PackageRecord) :
    ∀ st : PackageLock,
      (pkgs.foldl npmStep st).dependencies.map Prod.fst
        = ((pkgs.filter (fun p => !(p.version == "unknown"))).map
            (fun p => p.name)).foldl addKey (st.dependencies.map Prod.fst) := by
  induction pkgs with
  | nil => intro st; simp
  | cons p ps ih =>
    intro st
    rw [List.foldl_cons]
    by_cases hv : p.version = "unknown"
    · have hb : (!(p.version == "unknown")) = false := by simp [hv]
      have hstep : npmStep st p = st := by
        rw [npmStep, if_neg (by simpa using hv)]
      rw [hstep, List.filter_cons, hb]
      simpa using ih st
    · have hb : (!(p.version == "unknown")) = true := by simp [hv]
      have hstep : npmStep st p =
          ⟨dictInsert p.name p.version st.rootDependencies,
           dictInsert p.name ⟨p.version, p.url, "conda"⟩ st.dependencies⟩ := by
        rw [npmStep, if_pos hv]
      have hinit : (npmStep st p).dependencies.map Prod.fst
          = addKey (st.dependencies.map Prod.fst) p.name := by
        rw [hstep]
        exact keys_dictInsert_addKey p.name _ st.dependencies
      have hfilter : List.filter (fun p => !(p.version == "unknown")) (p :: ps)
          = p :: List.filter (fun p => !(p.version == "unknown")) ps := by
        simp [List.filter_cons, hb]
      rw [hfilter, List.map_cons, List.foldl_cons, ih (npmStep st p), hinit]

theorem addKey_foldl (ns : List String) :
    ∀ ks : List String, ks.Nodup →
      (ns.foldl addKey ks).Nodup ∧
      (ns.foldl addKey ks).toFinset = ks.toFinset ∪ ns.toFinset := by
  induction ns with
  | nil => intro ks h; exact ⟨h, by simp⟩
  | cons n ns ih =>
    intro ks h
    rw [List.foldl_cons]
    have hnodup : (addKey ks n).Nodup := by
      by_cases hm : n ∈ ks
      · rw [addKey, if_pos hm]; exact h
      · rw [addKey, if_neg hm, List.nodup_append]
        refine ⟨h, List.nodup_singleton n, ?_⟩
        intro a ha hb
        rw [List.mem_singleton] at hb
        exact hm (hb ▸ ha)
    have htf : (addKey ks n).toFinset = insert n ks.toFinset := by
      by_cases hm : n ∈ ks
      · rw [addKey, if_pos hm]
        exact (Finset.insert_eq_self.mpr (List.mem_toFinset.mpr hm)).symm
      · rw [addKey, if_neg hm, List.toFinset_append]
        ext x
        simp [or_comm]
    obtain ⟨h1, h2⟩ := ih (addKey ks n) hnodup
    refine ⟨h1, ?_⟩
    rw [h2, htf]
    ext x
    simp [List.toFinset_cons]

/-- C10: the npm-style emitter omits every record whose version is the
`unknown` sentinel from both of its maps; the others are keyed by name
with the last record of a name winning, and the returned count is the
number of distinct names among the records with a recognized version. -/
theorem c10_npm_style_maps (pkgs : List PackageRecord) (k : String) :
    ((create_package_json_style pkgs).1.dependencies.lookup k
       = (pkgs.reverse.find?
            (fun p => p.name == k && !(p.version == "unknown"))).map
           (fun p => (⟨p.version, p.url, "conda"⟩ : NpmDep)))
    ∧ ((create_package_json_style pkgs).1.rootDependencies.lookup k
       = (pkgs.reverse.find?
            (fun p => p.name == k && !(p.version == "unknown"))).map
           (fun p => p.version))
    ∧ (create_package_json_style pkgs).2
       = ((pkgs.filter (fun p => !(p.version == "unknown"))).map
           (fun p => p.name)).toFinset.card := by
  obtain ⟨h1, h2⟩ := npm_fold_lookup pkgs ⟨[], []⟩ k
  refine ⟨?_, ?_, ?_⟩
  · simpa [create_package_json_style] using h1
  · simpa [create_package_json_style] using h2
  · have hkeys := npm_fold_keys pkgs ⟨[], []⟩
    have hfold := addKey_foldl
      ((pkgs.filter (fun p => !(p.version == "unknown"))).map (fun p => p.name))
      [] List.nodup_nil
    calc (create_package_json_style pkgs).2
        = (pkgs.foldl npmStep ⟨[], []⟩).dependencies.length := rfl
      _ = ((pkgs.foldl npmStep ⟨[], []⟩).dependencies.map Prod.fst).length := by
          rw [List.length_map]
      _ = (((pkgs.filter (fun p => !(p.version == "unknown"))).map
            (fun p => p.name)).foldl addKey []).length := by rw [hkeys]; rfl
      _ = (((pkgs.filter (fun p => !(p.version == "unknown"))).map
            (fun p => p.name)).foldl addKey []).toFinset.card := by
          rw [List.toFinset_card_of_nodup hfold.1]
      _ = ((pkgs.filter (fun p => !(p.version == "unknown"))).map
            (fun p => p.name)).toFinset.card := by
          rw [hfold.2]
          simp
